import Mathlib

/-!
# Verification of the `repors` placement tree and worker pool

This file is a shallow embedding of the core of the `repors` repository:

* `src/tree.rs` — the `Location` / `LayerTree` placement-ordering structure
  (`Location::recognize`, `LayerTree::add`, `LayerTree::consume`);
* `src/execution.rs` — the `WorkerPool` coordinator (`create`, `execute`)
  and the per-worker clone loop.

Filesystem paths are modelled as lists of components over an arbitrary
component type with decidable equality; `p` is a filesystem ancestor of `q`
exactly when `p` is a list prefix of `q` (the Rust `Path::ancestors`
iterator enumerates the component-wise prefixes of a path, the path itself
included), written `p <+: q` below.
-/

set_option linter.unusedSectionVars false

namespace Repors

/-- A filesystem path, as its list of components. -/
abbrev Path (α : Type) := List α

variable {α : Type} [DecidableEq α]

/-- Node of the placement tree (struct `Location` in src/tree.rs):
its final path `root`, the staged temp path `temp`, and the children
that must be placed after it. -/
inductive Location (α : Type) where
  | mk (root : Path α) (temp : Path α) (children : List (Location α))

/-- The final path stored in a node (field `root` of `Location`). -/
def Location.rootPath : Location α → Path α
  | .mk r _ _ => r

/-- The staged temp path stored in a node (field `temp` of `Location`). -/
def Location.tempPath : Location α → Path α
  | .mk _ t _ => t

mutual

/-- `Location::recognize` (src/tree.rs lines 27-45).  Offers the incoming
path to every child in order (a child that claims it makes the `?`
operator return `None` at once); if no child claims it, checks whether
some ancestor of `other` equals this node`s root, in which case a new
leaf child is appended.  Returns the possibly updated node together with
the `Option` result: `none` means the path was claimed. -/
def Location.recognize : Location α → Path α → Path α → Option (Path α) × Location α
  | .mk r t cs, other, temp =>
    match recognizeList cs other temp with
    | (none, cs2) => (none, .mk r t cs2)
    | (some _, _) =>
      if r <+: other then (none, .mk r t (cs ++ [.mk other temp []]))
      else (some other, .mk r t cs)

/-- The `for child in self.children` loop of `Location::recognize`: the
first child that claims the path is replaced by its updated version and
the loop aborts; children that return `Some` are left unchanged. -/
def recognizeList : List (Location α) → Path α → Path α → Option (Path α) × List (Location α)
  | [], other, _ => (some other, [])
  | c :: rest, other, temp =>
    match Location.recognize c other temp with
    | (none, c2) => (none, c2 :: rest)
    | (some _, _) =>
      match recognizeList rest other temp with
      | (none, rest2) => (none, c :: rest2)
      | (some p, _) => (some p, c :: rest)

end

/-- `LayerTree` (src/tree.rs lines 52-55): the forest of root locations. -/
structure LayerTree (α : Type) where
  locations : List (Location α)

/-- `LayerTree::add` (src/tree.rs lines 59-77).  An empty forest gets the
path as its first root; otherwise each root is offered the path in order,
and if none claims it a new root is appended at the end. -/
def LayerTree.add (t : LayerTree α) (path temp : Path α) : LayerTree α :=
  match t.locations with
  | [] => ⟨[.mk path temp []]⟩
  | ls =>
    match recognizeList ls path temp with
    | (none, ls2) => ⟨ls2⟩
    | (some rem, _) => ⟨ls ++ [.mk rem temp []]⟩

mutual

/-- Termination measure for the `consume` work loop: a node weighs one
more than the sum over its children of (child weight + 1), so replacing a
node by its children plus a childless copy strictly decreases the total. -/
def locM : Location α → Nat
  | .mk _ _ cs => 1 + locMList cs

/-- Sum of `locM c + 1` over a list of locations. -/
def locMList : List (Location α) → Nat
  | [] => 0
  | c :: cs => locM c + 1 + locMList cs

end

/-- Sum of `locM` over a queue of locations. -/
def queueM : List (Location α) → Nat
  | [] => 0
  | c :: cs => locM c + queueM cs

/-- The `while !queue.is_empty()` loop of `LayerTree::consume`
(src/tree.rs lines 85-100).  The Rust `Vec` is used as a stack (`pop`
takes the last element, `push` appends); we model it as a list whose head
is the top of the stack.  A childless node is emitted; a node with
children is replaced by the drained children (pushed in order, hence
reversed on the stack) with the now childless node pushed on top. -/
def consumeAux : List (Location α) → List (Path α × Path α) → List (Path α × Path α)
  | [], out => out
  | .mk r t [] :: rest, out => consumeAux rest (out ++ [(r, t)])
  | .mk r t (c :: cs) :: rest, out =>
      consumeAux (.mk r t [] :: ((c :: cs).reverse ++ rest)) out
termination_by qs _ => queueM qs
decreasing_by
  · simp [queueM, locM, locMList]
  · have happ : ∀ xs ys : List (Location α), queueM (xs ++ ys) = queueM xs + queueM ys := by
      intro xs ys
      induction xs with
      | nil => simp [queueM]
      | cons a as ih => simp [queueM, ih]; omega
    have hrev : ∀ xs : List (Location α), queueM xs.reverse = queueM xs := by
      intro xs
      induction xs with
      | nil => rfl
      | cons a as ih => simp [queueM, List.reverse_cons, happ, ih]; omega
    have hml : ∀ ds : List (Location α), locMList ds = queueM ds + ds.length := by
      intro ds
      induction ds with
      | nil => simp [locMList, queueM]
      | cons a as ih => simp [locMList, queueM, ih]; omega
    simp only [queueM, locM, locMList]
    rw [happ, hrev]
    have := hml cs
    simp only [queueM, locM, locMList]
    omega

/-- `LayerTree::consume` (src/tree.rs lines 81-103).  The initial stack is
the locations vector, whose top is its last element. -/
def LayerTree.consume (t : LayerTree α) : List (Path α × Path α) :=
  consumeAux t.locations.reverse []

mutual

/-- Postorder listing of the (finalPath, tempPath) pairs of a subtree:
children first (in order), then the node itself.  This is exactly the
order in which `recognize` visits nodes. -/
def postorder : Location α → List (Path α × Path α)
  | .mk r t cs => postorderList cs ++ [(r, t)]

/-- Postorder listing of a forest. -/
def postorderList : List (Location α) → List (Path α × Path α)
  | [] => []
  | c :: cs => postorder c ++ postorderList cs

end

/-- Building a tree by `add`-ing a list of (finalPath, stagedTempPath)
pairs into an initially empty `LayerTree`. -/
def buildTree (ops : List (Path α × Path α)) : LayerTree α :=
  ops.foldl (fun t pr => t.add pr.1 pr.2) ⟨[]⟩

/-- The list-level counterpart of `LayerTree.add` acting on the postorder
listing: the new pair is inserted immediately before the first entry
whose path is an ancestor of the new path, or appended at the end when no
entry qualifies. -/
def listAdd : List (Path α × Path α) → Path α → Path α → List (Path α × Path α)
  | [], p, tp => [(p, tp)]
  | (q, s) :: rest, p, tp =>
    if q <+: p then (p, tp) :: (q, s) :: rest
    else (q, s) :: listAdd rest p tp

/-- The list-level counterpart of `buildTree`. -/
def listBuild (ops : List (Path α × Path α)) : List (Path α × Path α) :=
  ops.foldl (fun P pr => listAdd P pr.1 pr.2) []

/-- Strict filesystem ancestor: a proper component-wise ancestor. -/
def StrictAnc (p q : Path α) : Prop := p <+: q ∧ p ≠ q

instance (p q : Path α) : Decidable (StrictAnc p q) := by
  unfold StrictAnc; infer_instance

/-- No entry of the list is a strict ancestor of any later entry; this is
the key invariant of the postorder listing of every reachable tree. -/
def NoAncBefore (P : List (Path α × Path α)) : Prop :=
  P.Pairwise (fun x y => ¬ StrictAnc x.1 y.1)

mutual

/-- The (parent final path, child final path) pairs of the edges of a
subtree. -/
def edges : Location α → List (Path α × Path α)
  | .mk r _ cs => edgesList cs ++ cs.map (fun c => (r, c.rootPath))

/-- Edge pairs of a forest. -/
def edgesList : List (Location α) → List (Path α × Path α)
  | [] => []
  | c :: cs => edges c ++ edgesList cs

end

/-- All parent/child edges of a layer tree. -/
def treeEdges (t : LayerTree α) : List (Path α × Path α) :=
  edgesList t.locations

/-- Two paths are filesystem-related when either is an ancestor of the
other (a path counts as an ancestor of itself). -/
def relatedB (a b : Path α) : Bool := decide (a <+: b) || decide (b <+: a)

/-- Boolean check that no two entries of the list are filesystem-related. -/
def pairwiseUnrelB : List (Path α) → Bool
  | [] => true
  | a :: rest => rest.all (fun b => !relatedB a b) && pairwiseUnrelB rest

mutual

/-- Boolean check of the claimed invariant at a node: every path in a
child subtree is a strict descendant of this node, no two children have
related root paths, and every child satisfies the invariant recursively. -/
def locInvB : Location α → Bool
  | .mk r _ cs =>
      (postorderList cs).all (fun x => decide (StrictAnc r x.1))
        && pairwiseUnrelB (cs.map Location.rootPath)
        && locInvListB cs

/-- Boolean check of `locInvB` for every tree of a forest. -/
def locInvListB : List (Location α) → Bool
  | [] => true
  | c :: cs => locInvB c && locInvListB cs

end

/-- The claimed `LayerTree` invariant as a decidable predicate: the node
invariant everywhere, plus unrelatedness of the root paths (roots are
siblings too). -/
def treeInvB (t : LayerTree α) : Bool :=
  pairwiseUnrelB (t.locations.map Location.rootPath) && locInvListB t.locations

/-- Outcome of one clone job as received on the shared result channel
(an `io::Result<(PathBuf, PathBuf)>` in src/execution.rs). -/
inductive JobOutcome (α : Type) where
  | ok (dest temp : Path α)
  | failed
deriving DecidableEq

/-- An event received by the coordinator on the shared worker-event
channel during `execute`: an `Idle` notification, or a stray `Online`
message (the strange-message branch of the loop). -/
inductive PoolEvent where
  | idle (id : Nat)
  | online (id : Nat)
deriving DecidableEq

/-- Externally visible effects of `execute` after result collection:
termination signals, placement directory creations and renames, and
thread joins.  Filesystem operations are modelled as always succeeding. -/
inductive Action (α : Type) where
  | sendTerminate (id : Nat)
  | createDir (p : Path α)
  | rename (src dest : Path α)
  | join (id : Nat)
deriving DecidableEq

/-- A message obtained by one `events.recv()` call during
`WorkerPool::create`: a successful registration, a wrong message, or a
receive error from a closed channel. -/
inductive RegMsg where
  | online (id : Nat)
  | idle (id : Nat)
  | closed
deriving DecidableEq

/-- HashMap insertion on the set of worker ids: an existing key is
overwritten in place, a new key is added. -/
def insertWorker (ws : List Nat) (id : Nat) : List Nat :=
  if id ∈ ws then ws else ws ++ [id]

/-- The registration loop of `WorkerPool::create` (src/execution.rs lines
65-203), with the per-iteration thread spawn abstracted away: each of the
`amount` iterations must receive an `Online` registration; anything else
(a wrong message, or a closed or exhausted channel) aborts construction
with an error, returning no partial pool. -/
def createLoop (ws : List Nat) : Nat → List RegMsg → Except Unit (List Nat)
  | 0, _ => .ok ws
  | Nat.succ n, .online id :: rest => createLoop (insertWorker ws id) n rest
  | Nat.succ _, _ => .error ()

/-- `WorkerPool::create` (src/execution.rs lines 56-210), modelled on the
requested worker count and the sequence of messages the registration
channel yields. -/
def createModel (amount : Nat) (msgs : List RegMsg) : Except Unit (List Nat) :=
  createLoop [] amount msgs

variable {σ : Type}

/-- The initial assignment pass of `WorkerPool::execute` (src/execution.rs
lines 222-232): walk the workers in (arbitrary hash-map) order, hand each
one the next remaining spec, and mark workers for which no spec remains
as finished.  Returns (assigned jobs, remaining specs, finished ids). -/
def initialDispatch : List Nat → List σ → List (Nat × σ) × List σ × List Nat
  | [], specs => ([], specs, [])
  | w :: ws, [] =>
    let (a, r, f) := initialDispatch ws []
    (a, r, w :: f)
  | w :: ws, s :: ss =>
    let (a, r, f) := initialDispatch ws ss
    ((w, s) :: a, r, f)

/-- The collection loop of `WorkerPool::execute` (src/execution.rs lines
234-271): loop until as many finished markers as workers have
accumulated; each received `Idle` from a known worker either gets the next
spec dispatched to it or marks that worker finished; unknown ids and
stray `Online` messages are skipped; an exhausted event list models a
receive error and aborts with `none`. -/
def collectLoop (workers : List Nat) :
    List σ → List Nat → List (Nat × σ) → List PoolEvent → Option (List (Nat × σ))
  | specs, finished, dispatched, events =>
    if finished.length = workers.length then some dispatched
    else
      match events with
      | [] => none
      | .online _ :: rest => collectLoop workers specs finished dispatched rest
      | .idle id :: rest =>
        if id ∈ workers then
          match specs with
          | [] => collectLoop workers [] (finished ++ [id]) dispatched rest
          | s :: ss => collectLoop workers ss finished (dispatched ++ [(id, s)]) rest
        else collectLoop workers specs finished dispatched rest

/-- The result-channel drain of `execute` (src/execution.rs lines
276-289): every `Ok` outcome feeds the layer tree, any `Err` outcome sets
the failure flag; the entire channel content is always processed. -/
def collectOutcomes (outs : List (JobOutcome α)) : Bool × LayerTree α :=
  outs.foldl
    (fun st o =>
      match o with
      | .ok d tmp => (st.1, st.2.add d tmp)
      | .failed => (true, st.2))
    (false, ⟨[]⟩)

/-- The placement loop (src/execution.rs lines 311-315): for each ordered
pair, create the destination directory and rename the staged directory
onto it. -/
def placementActs (order : List (Path α × Path α)) : List (Action α) :=
  (order.map (fun pr => [Action.createDir pr.1, Action.rename pr.2 pr.1])).flatten

/-- `WorkerPool::execute` (src/execution.rs lines 215-324), modelled on:
the worker ids in iteration order, the manifest specs, the events the
shared channel yields during the collection loop, and the job outcomes
sitting in the result channel afterwards.  Returns the overall result,
the list of dispatched jobs, and the trace of termination, placement and
join effects.  On both failure paths the code returns before the
termination-send loop and the join loop, so the trace is empty there. -/
def executeModel (workers : List Nat) (specs : List σ) (events : List PoolEvent)
    (outcomes : List (JobOutcome α)) :
    Except Unit Unit × List (Nat × σ) × List (Action α) :=
  let (assigned, remaining, finished) := initialDispatch workers specs
  match collectLoop workers remaining finished assigned events with
  | none => (.error (), assigned, [])
  | some dispatched =>
    let (failed, t) := collectOutcomes outcomes
    if failed then (.error (), dispatched, [])
    else
      (.ok (), dispatched,
        (workers.map Action.sendTerminate) ++ placementActs t.consume
          ++ (workers.map Action.join))

/-- The per-job script of step results for the clone task executor: which
of the six fallible steps (staging-directory creation, clone, revision
lookup, set-head, checkout, hard reset) succeed. -/
structure CloneScript where
  mkdirOk : Bool
  cloneOk : Bool
  findOk : Bool
  setHeadOk : Bool
  checkoutOk : Bool
  resetOk : Bool
deriving DecidableEq

/-- All six steps of a script succeed. -/
def CloneScript.allOk (s : CloneScript) : Bool :=
  s.mkdirOk && s.cloneOk && s.findOk && s.setHeadOk && s.checkoutOk && s.resetOk

/-- A message arriving on a worker job queue: a clone job (with its step
script) or the termination signal. -/
inductive WJob where
  | cloner (s : CloneScript)
  | terminate
deriving DecidableEq

/-- What a worker emits: a result send (ok or error) on the job result
channel, or an `Idle` event on the shared pool channel. -/
inductive WOut where
  | resultOk
  | resultErr
  | idle
deriving DecidableEq

/-- The worker run loop spawned by `WorkerPool::create` (src/execution.rs
lines 79-192): receive jobs until the channel closes (end of list) or a
`Terminate` arrives; a failing step sends the error result and returns
from the thread at once; a fully successful job sends the ok result and
an `Idle` event and loops.  Sends are modelled as always succeeding. -/
def workerLoop : List WJob → List WOut
  | [] => []
  | .terminate :: _ => []
  | .cloner s :: rest =>
    if !s.mkdirOk then [.resultErr]
    else if !s.cloneOk then [.resultErr]
    else if !s.findOk then [.resultErr]
    else if !s.setHeadOk then [.resultErr]
    else if !s.checkoutOk then [.resultErr]
    else if !s.resetOk then [.resultErr]
    else .resultOk :: .idle :: workerLoop rest

theorem postorderList_append (xs ys : List (Location α)) :
    postorderList (xs ++ ys) = postorderList xs ++ postorderList ys := by
  induction xs with
  | nil => simp [postorderList]
  | cons c cs ih => simp [postorderList, ih]

theorem listAdd_of_not_claimed (P : List (Path α × Path α)) (p tp : Path α)
    (h : ∀ x ∈ P, ¬ x.1 <+: p) : listAdd P p tp = P ++ [(p, tp)] := by
  induction P with
  | nil => rfl
  | cons hd rest ih =>
    obtain ⟨q, s⟩ := hd
    have hq : ¬ q <+: p := h (q, s) (List.mem_cons_self _ _)
    simp only [listAdd, if_neg hq, List.cons_append]
    rw [ih (fun x hx => h x (List.mem_cons_of_mem _ hx))]

theorem listAdd_append_of_claimed (X Y : List (Path α × Path α)) (p tp : Path α)
    (h : ∃ x ∈ X, x.1 <+: p) : listAdd (X ++ Y) p tp = listAdd X p tp ++ Y := by
  induction X with
  | nil => simp at h
  | cons hd rest ih =>
    obtain ⟨q, s⟩ := hd
    by_cases hq : q <+: p
    · simp [listAdd, if_pos hq]
    · obtain ⟨x, hx, hxp⟩ := h
      rcases List.mem_cons.1 hx with hx | hx
      · subst hx; exact absurd hxp hq
      · simp only [List.cons_append, listAdd, if_neg hq, List.append_eq]
        rw [ih ⟨x, hx, hxp⟩]

theorem listAdd_append_of_not_claimed (X Y : List (Path α × Path α)) (p tp : Path α)
    (h : ∀ x ∈ X, ¬ x.1 <+: p) : listAdd (X ++ Y) p tp = X ++ listAdd Y p tp := by
  induction X with
  | nil => simp
  | cons hd rest ih =>
    obtain ⟨q, s⟩ := hd
    have hq : ¬ q <+: p := h (q, s) (List.mem_cons_self _ _)
    simp only [List.cons_append, listAdd, if_neg hq, List.append_eq]
    rw [ih (fun x hx => h x (List.mem_cons_of_mem _ hx))]

theorem mem_listAdd (P : List (Path α × Path α)) (p tp : Path α) (x : Path α × Path α) :
    x ∈ listAdd P p tp ↔ x = (p, tp) ∨ x ∈ P := by
  induction P with
  | nil => simp [listAdd]
  | cons hd rest ih =>
    obtain ⟨q, s⟩ := hd
    by_cases hq : q <+: p
    · simp [listAdd, if_pos hq]
    · simp only [listAdd, if_neg hq, List.mem_cons, ih]
      tauto

theorem listAdd_perm (P : List (Path α × Path α)) (p tp : Path α) :
    (listAdd P p tp).Perm ((p, tp) :: P) := by
  induction P with
  | nil => simp [listAdd]
  | cons hd rest ih =>
    obtain ⟨q, s⟩ := hd
    by_cases hq : q <+: p
    · simp [listAdd, if_pos hq]
    · simp only [listAdd, if_neg hq]
      exact (ih.cons _).trans (List.Perm.swap _ _ _)

mutual

theorem recognize_some : ∀ (l : Location α) (p tp q : Path α) (l' : Location α),
    Location.recognize l p tp = (some q, l') →
    q = p ∧ l' = l ∧ ∀ x ∈ postorder l, ¬ x.1 <+: p
  | .mk r t cs, p, tp, q, l', h => by
    simp only [Location.recognize] at h
    rcases hres : recognizeList cs p tp with ⟨o, cs2⟩
    rw [hres] at h
    match o with
    | none => simp at h
    | some q0 =>
      by_cases hpre : r <+: p
      · simp [if_pos hpre] at h
      · simp only [if_neg hpre, Prod.mk.injEq, Option.some.injEq] at h
        obtain ⟨hq, hl⟩ := h
        have ih := recognizeList_some cs p tp q0 cs2 hres
        refine ⟨hq.symm, hl.symm, ?_⟩
        intro x hx
        simp only [postorder, List.mem_append, List.mem_singleton] at hx
        rcases hx with hx | hx
        · exact ih.2.2 x hx
        · subst hx; exact hpre

theorem recognizeList_some : ∀ (ls : List (Location α)) (p tp q : Path α)
    (ls' : List (Location α)),
    recognizeList ls p tp = (some q, ls') →
    q = p ∧ ls' = ls ∧ ∀ x ∈ postorderList ls, ¬ x.1 <+: p
  | [], p, tp, q, ls', h => by
    simp only [recognizeList, Prod.mk.injEq, Option.some.injEq] at h
    obtain ⟨hq, hl⟩ := h
    exact ⟨hq.symm, hl.symm, by simp [postorderList]⟩
  | c :: rest, p, tp, q, ls', h => by
    simp only [recognizeList] at h
    rcases hc : Location.recognize c p tp with ⟨oc, c2⟩
    rw [hc] at h
    match oc with
    | none => simp at h
    | some qc =>
      rcases hr : recognizeList rest p tp with ⟨or, rest2⟩
      rw [hr] at h
      match or with
      | none => simp at h
      | some qr =>
        simp only [Prod.mk.injEq, Option.some.injEq] at h
        obtain ⟨hq, hl⟩ := h
        have ihc := recognize_some c p tp qc c2 hc
        have ihr := recognizeList_some rest p tp qr rest2 hr
        refine ⟨hq ▸ ihr.1, hl.symm, ?_⟩
        intro x hx
        simp only [postorderList, List.mem_append] at hx
        rcases hx with hx | hx
        · exact ihc.2.2 x hx
        · exact ihr.2.2 x hx

end

mutual

theorem recognize_none : ∀ (l : Location α) (p tp : Path α) (l' : Location α),
    Location.recognize l p tp = (none, l') →
    postorder l' = listAdd (postorder l) p tp ∧ ∃ x ∈ postorder l, x.1 <+: p
  | .mk r t cs, p, tp, l', h => by
    simp only [Location.recognize] at h
    rcases hres : recognizeList cs p tp with ⟨o, cs2⟩
    rw [hres] at h
    match o with
    | none =>
      simp only [Prod.mk.injEq] at h
      have ih := recognizeList_none cs p tp cs2 hres
      obtain ⟨hpost, x, hx, hxp⟩ := ih
      constructor
      · rw [← h.2, postorder, postorder, hpost,
          listAdd_append_of_claimed _ _ _ _ ⟨x, hx, hxp⟩]
      · exact ⟨x, by simp [postorder, List.mem_append, hx], hxp⟩
    | some q0 =>
      have ihs := recognizeList_some cs p tp q0 cs2 hres
      by_cases hpre : r <+: p
      · simp only [if_pos hpre, Prod.mk.injEq] at h
        constructor
        · rw [← h.2, postorder, postorder, postorderList_append,
            listAdd_append_of_not_claimed _ _ _ _ ihs.2.2]
          simp [postorderList, postorder, listAdd, if_pos hpre]
        · exact ⟨(r, t), by simp [postorder], hpre⟩
      · simp [if_neg hpre] at h

theorem recognizeList_none : ∀ (ls : List (Location α)) (p tp : Path α)
    (ls' : List (Location α)),
    recognizeList ls p tp = (none, ls') →
    postorderList ls' = listAdd (postorderList ls) p tp ∧
      ∃ x ∈ postorderList ls, x.1 <+: p
  | [], p, tp, ls', h => by simp [recognizeList] at h
  | c :: rest, p, tp, ls', h => by
    simp only [recognizeList] at h
    rcases hc : Location.recognize c p tp with ⟨oc, c2⟩
    rw [hc] at h
    match oc with
    | none =>
      simp only [Prod.mk.injEq] at h
      have ih := recognize_none c p tp c2 hc
      obtain ⟨hpost, x, hx, hxp⟩ := ih
      constructor
      · rw [← h.2, postorderList, postorderList, hpost,
          listAdd_append_of_claimed _ _ _ _ ⟨x, hx, hxp⟩]
      · exact ⟨x, by simp [postorderList, List.mem_append, hx], hxp⟩
    | some qc =>
      have ihc := recognize_some c p tp qc c2 hc
      rcases hr : recognizeList rest p tp with ⟨or, rest2⟩
      rw [hr] at h
      match or with
      | none =>
        simp only [Prod.mk.injEq] at h
        have ihr := recognizeList_none rest p tp rest2 hr
        obtain ⟨hpost, x, hx, hxp⟩ := ihr
        constructor
        · rw [← h.2, postorderList, postorderList, hpost,
            listAdd_append_of_not_claimed _ _ _ _ ihc.2.2]
        · exact ⟨x, by simp [postorderList, List.mem_append, hx], hxp⟩
      | some qr => simp at h

end

theorem add_postorder (t : LayerTree α) (p tp : Path α) :
    postorderList (t.add p tp).locations = listAdd (postorderList t.locations) p tp := by
  obtain ⟨ls⟩ := t
  match ls with
  | [] => simp [LayerTree.add, postorderList, postorder, listAdd]
  | c :: rest =>
    rcases hres : recognizeList (c :: rest) p tp with ⟨o, ls2⟩
    match o with
    | none =>
      have ih := recognizeList_none (c :: rest) p tp ls2 hres
      simp only [LayerTree.add, hres]
      exact ih.1
    | some q0 =>
      have ih := recognizeList_some (c :: rest) p tp q0 ls2 hres
      obtain ⟨hq, hunch, hnc⟩ := ih
      subst hq
      simp only [LayerTree.add, hres]
      rw [postorderList_append, listAdd_of_not_claimed _ _ _ hnc]
      simp [postorderList, postorder]

theorem postorderList_reverse (ds : List (Location α)) :
    (postorderList ds).reverse
      = (ds.reverse.map (fun l => (postorder l).reverse)).flatten := by
  induction ds with
  | nil => simp [postorderList]
  | cons c cs ih => simp [postorderList, List.reverse_append, ih]

theorem consumeAux_eq (qs : List (Location α)) (out : List (Path α × Path α)) :
    consumeAux qs out = out ++ (qs.map (fun l => (postorder l).reverse)).flatten := by
  induction qs, out using consumeAux.induct with
  | case1 out => simp [consumeAux]
  | case2 r t rest out ih =>
    rw [consumeAux, ih]
    simp [postorder, postorderList]
  | case3 r t c cs rest out ih =>
    rw [consumeAux, ih]
    have h := postorderList_reverse (α := α) cs
    simp [postorder, postorderList, h, List.flatten_append, List.map_reverse,
      List.append_assoc]

theorem consume_eq (t : LayerTree α) :
    t.consume = (postorderList t.locations).reverse := by
  rw [LayerTree.consume, consumeAux_eq, postorderList_reverse]
  simp

theorem buildTree_postorder (ops : List (Path α × Path α)) :
    postorderList (buildTree ops).locations = listBuild ops := by
  suffices h : ∀ (t : LayerTree α) (P : List (Path α × Path α)),
      postorderList t.locations = P →
      postorderList (ops.foldl (fun t pr => t.add pr.1 pr.2) t).locations
        = ops.foldl (fun P pr => listAdd P pr.1 pr.2) P by
    exact h ⟨[]⟩ [] rfl
  induction ops with
  | nil => intro t P h; simpa using h
  | cons op rest ih =>
    intro t P h
    simp only [List.foldl_cons]
    exact ih _ _ (by rw [add_postorder, h])

theorem listBuild_perm (ops : List (Path α × Path α)) : (listBuild ops).Perm ops := by
  suffices h : ∀ (acc : List (Path α × Path α)),
      (ops.foldl (fun P pr => listAdd P pr.1 pr.2) acc).Perm (ops.reverse ++ acc) by
    have h2 := h []
    simp only [List.append_nil] at h2
    exact h2.trans (List.reverse_perm ops)
  induction ops with
  | nil => intro acc; simp
  | cons op rest ih =>
    intro acc
    simp only [List.foldl_cons, List.reverse_cons, List.append_assoc,
      List.singleton_append]
    exact (ih _).trans (List.Perm.append_left _ (by simpa using listAdd_perm acc op.1 op.2))

theorem anc_antisymm {p q : Path α} (h1 : p <+: q) (h2 : q <+: p) : p = q :=
  h1.eq_of_length (Nat.le_antisymm h1.length_le h2.length_le)

theorem listAdd_noAncBefore (P : List (Path α × Path α)) (p tp : Path α)
    (h : NoAncBefore P) : NoAncBefore (listAdd P p tp) := by
  induction P with
  | nil =>
    simp [listAdd, NoAncBefore]
  | cons hd rest ih =>
    obtain ⟨q, s⟩ := hd
    rw [NoAncBefore, List.pairwise_cons] at h
    obtain ⟨hqrest, hrest⟩ := h
    by_cases hq : q <+: p
    · rw [NoAncBefore]
      simp only [listAdd, if_pos hq]
      rw [List.pairwise_cons]
      refine ⟨?_, ?_⟩
      · intro y hy
        rcases List.mem_cons.1 hy with hy | hy
        · subst hy
          rintro ⟨hpq, hne⟩
          exact hne (anc_antisymm hpq hq)
        · rintro ⟨hpy, hne⟩
          rcases eq_or_ne q y.1 with hqy | hqy
          · exact hne (anc_antisymm hpy (hqy ▸ hq))
          · exact hqrest y hy ⟨hq.trans hpy, hqy⟩
      · rw [List.pairwise_cons]
        exact ⟨hqrest, hrest⟩
    · rw [NoAncBefore]
      simp only [listAdd, if_neg hq]
      rw [List.pairwise_cons]
      refine ⟨?_, ih hrest⟩
      intro y hy
      rcases (mem_listAdd rest p tp y).1 hy with hy | hy
      · subst hy
        rintro ⟨hqp, _⟩
        exact hq hqp
      · exact hqrest y hy

theorem listBuild_noAncBefore (ops : List (Path α × Path α)) :
    NoAncBefore (listBuild ops) := by
  suffices h : ∀ (acc : List (Path α × Path α)), NoAncBefore acc →
      NoAncBefore (ops.foldl (fun P pr => listAdd P pr.1 pr.2) acc) by
    exact h [] (by simp [NoAncBefore])
  induction ops with
  | nil => intro acc hacc; simpa using hacc
  | cons op rest ih =>
    intro acc hacc
    simp only [List.foldl_cons]
    exact ih _ (listAdd_noAncBefore _ _ _ hacc)

/-- C1: for every sequence of add calls on a LayerTree in which one
inserted path `A` is a strict filesystem ancestor of another inserted
path `B`, the list returned by consume emits every pair carrying path `A`
strictly before every pair carrying path `B`, regardless of the order in
which the paths were added. -/
theorem consume_emits_ancestor_first (ops : List (Path α × Path α)) (A B ta tb : Path α)
    (hanc : StrictAnc A B) (i j : Nat)
    (hA : ((buildTree ops).consume)[i]? = some (A, ta))
    (hB : ((buildTree ops).consume)[j]? = some (B, tb)) :
    i < j := by
  have hco : (buildTree ops).consume = (listBuild ops).reverse := by
    rw [consume_eq, buildTree_postorder]
  rw [hco] at hA hB
  rw [List.getElem?_eq_some] at hA hB
  obtain ⟨hi, hA⟩ := hA
  obtain ⟨hj, hB⟩ := hB
  have hN : NoAncBefore (listBuild ops) := listBuild_noAncBefore ops
  have hrev : ((listBuild ops).reverse).Pairwise (fun x y => ¬ StrictAnc y.1 x.1) := by
    rw [List.pairwise_reverse]
    exact hN
  rcases Nat.lt_trichotomy i j with h | h | h
  · exact h
  · exfalso
    subst h
    rw [hA] at hB
    have : A = B := congrArg Prod.fst hB
    exact hanc.2 this
  · exfalso
    have := List.pairwise_iff_getElem.1 hrev j i hj hi h
    rw [hA, hB] at this
    exact this hanc

/-- Witness for C1 at a concrete input: inserting the descendant first
and the ancestor second, consume still emits the ancestor first. -/
theorem consume_emits_ancestor_first_witness : (0 : Nat) < 1 := by
  have hc : (buildTree [(([0, 1] : Path Nat), [5]), ([0], [6])]).consume
      = [([0], [6]), ([0, 1], [5])] := by
    rw [consume_eq, buildTree_postorder]
    rfl
  exact consume_emits_ancestor_first [([0, 1], [5]), ([0], [6])] [0] [0, 1] [6] [5]
    (by constructor <;> decide) 0 1 (by rw [hc]; rfl) (by rw [hc]; rfl)

/-- C5: after any sequence of n add calls (duplicates and nested paths
included), consume returns exactly n pairs, and every inserted pair
appears exactly as often as it was inserted: the output is a permutation
of the input. -/
theorem consume_count_eq_ops (ops : List (Path α × Path α)) :
    ((buildTree ops).consume).length = ops.length ∧
    ((buildTree ops).consume).Perm ops := by
  have h : ((buildTree ops).consume).Perm ops := by
    rw [consume_eq, buildTree_postorder]
    exact (List.reverse_perm _).trans (listBuild_perm ops)
  exact ⟨h.length_eq, h⟩

/-- C9: adding the same final path twice attaches the second node as the
sole child of the first (a path counts as an ancestor of itself), and
consume emits both pairs with the first-added strictly before the
second-added. -/
theorem add_duplicate_path (A t1 t2 : Path α) :
    (buildTree [(A, t1), (A, t2)]).locations = [.mk A t1 [.mk A t2 []]] ∧
    (buildTree [(A, t1), (A, t2)]).consume = [(A, t1), (A, t2)] := by
  have hb : (buildTree [(A, t1), (A, t2)]).locations = [.mk A t1 [.mk A t2 []]] := by
    simp [buildTree, LayerTree.add, recognizeList, Location.recognize,
      List.prefix_refl]
  refine ⟨hb, ?_⟩
  rw [consume_eq, hb]
  simp [postorderList, postorder]

theorem find?_append_some {β : Type} (P : β → Bool) (l₁ l₂ : List β) (m : β)
    (h : l₁.find? P = some m) : (l₁ ++ l₂).find? P = some m := by
  induction l₁ with
  | nil => simp at h
  | cons a l ih =>
    by_cases hPa : P a = true
    · rw [List.find?_cons_of_pos _ hPa] at h
      rw [List.cons_append, List.find?_cons_of_pos _ hPa]
      exact h
    · rw [List.find?_cons_of_neg _ hPa] at h
      rw [List.cons_append, List.find?_cons_of_neg _ hPa]
      exact ih h

theorem find?_append_none_left {β : Type} (P : β → Bool) (l₁ l₂ : List β)
    (h : ∀ x ∈ l₁, ¬ P x = true) : (l₁ ++ l₂).find? P = l₂.find? P := by
  induction l₁ with
  | nil => simp
  | cons a l ih =>
    rw [List.cons_append, List.find?_cons_of_neg _ (h a (List.mem_cons_self _ _))]
    exact ih (fun x hx => h x (List.mem_cons_of_mem _ hx))

theorem edgesList_append (xs ys : List (Location α)) :
    edgesList (xs ++ ys) = edgesList xs ++ edgesList ys := by
  induction xs with
  | nil => simp [edgesList]
  | cons c cs ih => simp [edgesList, ih]

theorem root_temp_mem_postorder (c : Location α) :
    (c.rootPath, c.tempPath) ∈ postorder c := by
  obtain ⟨r, t, cs⟩ := c
  simp [postorder, Location.rootPath, Location.tempPath]

theorem map_pair_root_eq (r : Path α) (cs cs2 : List (Location α))
    (h : cs2.map Location.rootPath = cs.map Location.rootPath) :
    cs2.map (fun c => (r, c.rootPath)) = cs.map (fun c => (r, c.rootPath)) := by
  have h1 : cs2.map (fun c => (r, c.rootPath))
      = (cs2.map Location.rootPath).map (fun q => (r, q)) := by
    rw [List.map_map]; rfl
  have h2 : cs.map (fun c => (r, c.rootPath))
      = (cs.map Location.rootPath).map (fun q => (r, q)) := by
    rw [List.map_map]; rfl
  rw [h1, h2, h]

mutual

theorem recognize_none_edges : ∀ (l : Location α) (p tp : Path α) (l' : Location α),
    Location.recognize l p tp = (none, l') →
    ∃ m, (postorder l).find? (fun x => decide (x.1 <+: p)) = some m ∧
      (edges l').Perm ((m.1, p) :: edges l) ∧ l'.rootPath = l.rootPath
  | .mk r t cs, p, tp, l', h => by
    simp only [Location.recognize] at h
    rcases hres : recognizeList cs p tp with ⟨o, cs2⟩
    rw [hres] at h
    match o with
    | none =>
      simp only [Prod.mk.injEq, true_and] at h
      obtain ⟨m, hfind, hperm, hroots⟩ := recognizeList_none_edges cs p tp cs2 hres
      refine ⟨m, ?_, ?_, ?_⟩
      · rw [postorder]
        exact find?_append_some _ _ _ _ hfind
      · rw [← h, edges, edges, map_pair_root_eq r cs cs2 hroots]
        exact hperm.append_right _
      · rw [← h]; rfl
    | some q0 =>
      have ihs := recognizeList_some cs p tp q0 cs2 hres
      by_cases hpre : r <+: p
      · simp only [if_pos hpre, Prod.mk.injEq, true_and] at h
        refine ⟨(r, t), ?_, ?_, ?_⟩
        · rw [postorder]
          rw [find?_append_none_left _ _ _
            (fun x hx => by simpa using ihs.2.2 x hx)]
          exact List.find?_cons_of_pos _ (by simpa using hpre)
        · rw [← h]
          have hE : edges (Location.mk r t (cs ++ [Location.mk p tp []]))
              = (edgesList cs ++ cs.map (fun c => (r, c.rootPath))) ++ [(r, p)] := by
            simp [edges, edgesList_append, edgesList, Location.rootPath]
          rw [hE, edges]
          exact List.perm_append_singleton _ _
        · rw [← h]; rfl
      · simp [if_neg hpre] at h

theorem recognizeList_none_edges : ∀ (ls : List (Location α)) (p tp : Path α)
    (ls' : List (Location α)),
    recognizeList ls p tp = (none, ls') →
    ∃ m, (postorderList ls).find? (fun x => decide (x.1 <+: p)) = some m ∧
      (edgesList ls').Perm ((m.1, p) :: edgesList ls) ∧
      ls'.map Location.rootPath = ls.map Location.rootPath
  | [], p, tp, ls', h => by simp [recognizeList] at h
  | c :: rest, p, tp, ls', h => by
    simp only [recognizeList] at h
    rcases hc : Location.recognize c p tp with ⟨oc, c2⟩
    rw [hc] at h
    match oc with
    | none =>
      simp only [Prod.mk.injEq, true_and] at h
      obtain ⟨m, hfind, hperm, hroot⟩ := recognize_none_edges c p tp c2 hc
      refine ⟨m, ?_, ?_, ?_⟩
      · rw [postorderList]
        exact find?_append_some _ _ _ _ hfind
      · rw [← h, edgesList, edgesList]
        exact hperm.append_right _
      · rw [← h, List.map_cons, List.map_cons, hroot]
    | some qc =>
      have ihc := recognize_some c p tp qc c2 hc
      rcases hr : recognizeList rest p tp with ⟨or, rest2⟩
      rw [hr] at h
      match or with
      | none =>
        simp only [Prod.mk.injEq, true_and] at h
        obtain ⟨m, hfind, hperm, hroots⟩ := recognizeList_none_edges rest p tp rest2 hr
        refine ⟨m, ?_, ?_, ?_⟩
        · rw [postorderList]
          rw [find?_append_none_left _ _ _
            (fun x hx => by simpa using ihc.2.2 x hx)]
          exact hfind
        · rw [← h, edgesList, edgesList]
          exact (List.Perm.append_left _ hperm).trans List.perm_middle
        · rw [← h, List.map_cons, List.map_cons, hroots]
      | some qr => simp at h

end

theorem find?_claims_deepest (P : List (Path α × Path α)) (p : Path α)
    (m : Path α × Path α) (hN : NoAncBefore P)
    (hm : P.find? (fun x => decide (x.1 <+: p)) = some m) :
    ∀ x ∈ P, x.1 <+: p → x.1 <+: m.1 := by
  induction P with
  | nil => simp at hm
  | cons hd rest ih =>
    rw [NoAncBefore, List.pairwise_cons] at hN
    obtain ⟨hhd, hrest⟩ := hN
    by_cases hq : hd.1 <+: p
    · rw [List.find?_cons_of_pos _ (by simpa using hq)] at hm
      have hmhd : m = hd := by injection hm with h; exact h.symm
      subst hmhd
      intro x hx hxp
      rcases List.mem_cons.1 hx with hx | hx
      · subst hx; exact List.prefix_refl _
      · rcases List.prefix_or_prefix_of_prefix hxp hq with h | h
        · exact h
        · rcases eq_or_ne m.1 x.1 with he | he
          · exact he ▸ List.prefix_refl _
          · exact absurd ⟨h, he⟩ (hhd x hx)
    · rw [List.find?_cons_of_neg _ (by simpa using hq)] at hm
      intro x hx hxp
      rcases List.mem_cons.1 hx with hx | hx
      · subst hx; exact absurd hxp hq
      · exact ih hrest hm x hx hxp

/-- C4: for every tree built by a sequence of add calls and every
incoming path: when at least one node has a final path that is a
filesystem ancestor of the incoming path, add attaches the new node as a
child of the first qualifying node in depth-first search order (children
searched before their parent), and that node is a deepest (most specific)
qualifying node — every qualifying path in the tree is an ancestor of its
path; when no node qualifies, the new path becomes an additional root. -/
theorem add_attaches_to_deepest (ops : List (Path α × Path α)) (p tp : Path α) :
    (∀ m, (postorderList (buildTree ops).locations).find?
        (fun x => decide (x.1 <+: p)) = some m →
      (treeEdges ((buildTree ops).add p tp)).Perm
          ((m.1, p) :: treeEdges (buildTree ops)) ∧
      ∀ x ∈ postorderList (buildTree ops).locations, x.1 <+: p → x.1 <+: m.1) ∧
    ((postorderList (buildTree ops).locations).find?
        (fun x => decide (x.1 <+: p)) = none →
      ((buildTree ops).add p tp).locations
        = (buildTree ops).locations ++ [.mk p tp []]) := by
  constructor
  · intro m hm
    have hN : NoAncBefore (postorderList (buildTree ops).locations) := by
      rw [buildTree_postorder]; exact listBuild_noAncBefore ops
    refine ⟨?_, find?_claims_deepest _ _ _ hN hm⟩
    rcases hls : (buildTree ops).locations with _ | ⟨c, rest⟩
    · rw [hls] at hm; simp [postorderList] at hm
    · rcases hres : recognizeList (c :: rest) p tp with ⟨o, ls2⟩
      match o with
      | some q0 =>
        exfalso
        have ihs := recognizeList_some (c :: rest) p tp q0 ls2 hres
        have hfn : (postorderList (c :: rest)).find? (fun x => decide (x.1 <+: p))
            = none :=
          List.find?_eq_none.2 (fun x hx => by simpa using ihs.2.2 x hx)
        rw [hls, hfn] at hm
        exact Option.noConfusion hm
      | none =>
        obtain ⟨m2, hfind, hperm, _⟩ := recognizeList_none_edges (c :: rest) p tp ls2 hres
        have hm2 : m2 = m := by
          rw [hls, hfind] at hm
          injection hm
        subst hm2
        have hadd : ((buildTree ops).add p tp).locations = ls2 := by
          simp only [LayerTree.add, hls, hres]
        rw [treeEdges, treeEdges, hadd, hls]
        exact hperm
  · intro hm
    have hnone : ∀ x ∈ postorderList (buildTree ops).locations, ¬ x.1 <+: p := by
      intro x hx
      have := List.find?_eq_none.1 hm x hx
      simpa using this
    rcases hls : (buildTree ops).locations with _ | ⟨c, rest⟩
    · simp only [LayerTree.add, hls]
      rfl
    · rcases hres : recognizeList (c :: rest) p tp with ⟨o, ls2⟩
      match o with
      | none =>
        exfalso
        obtain ⟨_, x, hx, hxp⟩ := recognizeList_none (c :: rest) p tp ls2 hres
        exact hnone x (by rw [hls]; exact hx) hxp
      | some q0 =>
        have ihs := recognizeList_some (c :: rest) p tp q0 ls2 hres
        obtain ⟨hq, _, _⟩ := ihs
        subst hq
        simp only [LayerTree.add, hls, hres]

/-- Witness for C4: adding a strict descendant of the only node attaches
it there as a child edge, and adding an unrelated path appends a new
root. -/
theorem add_attaches_to_deepest_witness :
    (treeEdges ((buildTree [(([0] : Path Nat), [9])]).add [0, 1] [7])).Perm
      (([0], [0, 1]) :: treeEdges (buildTree [(([0] : Path Nat), [9])])) ∧
    ((buildTree [(([0] : Path Nat), [9])]).add [5] [7]).locations
      = (buildTree [(([0] : Path Nat), [9])]).locations ++ [.mk [5] [7] []] := by
  constructor
  · exact ((add_attaches_to_deepest [([0], [9])] [0, 1] [7]).1 ([0], [9]) (by rfl)).1
  · exact (add_attaches_to_deepest [([0], [9])] [5] [7]).2 (by rfl)

theorem relatedB_eq_false_iff (a b : Path α) :
    relatedB a b = false ↔ ¬ a <+: b ∧ ¬ b <+: a := by
  simp [relatedB]

theorem pairwiseUnrelB_iff (xs : List (Path α)) :
    pairwiseUnrelB xs = true ↔ xs.Pairwise (fun a b => relatedB a b = false) := by
  induction xs with
  | nil => simp [pairwiseUnrelB]
  | cons a rest ih =>
    simp [pairwiseUnrelB, List.pairwise_cons, ih, List.all_eq_true,
      Bool.not_eq_true']

theorem pairwiseUnrelB_append_singleton (xs : List (Path α)) (b : Path α)
    (h1 : pairwiseUnrelB xs = true) (h2 : ∀ a ∈ xs, relatedB a b = false) :
    pairwiseUnrelB (xs ++ [b]) = true := by
  rw [pairwiseUnrelB_iff] at h1 ⊢
  rw [List.pairwise_append]
  refine ⟨h1, List.pairwise_singleton _ _, ?_⟩
  intro a ha b' hb'
  rw [List.mem_singleton] at hb'
  subst hb'
  exact h2 a ha

theorem locInvListB_iff (cs : List (Location α)) :
    locInvListB cs = true ↔ ∀ c ∈ cs, locInvB c = true := by
  induction cs with
  | nil => simp [locInvListB]
  | cons c rest ih => simp [locInvListB, Bool.and_eq_true, ih]

theorem locInvListB_append (xs ys : List (Location α)) :
    locInvListB (xs ++ ys) = (locInvListB xs && locInvListB ys) := by
  induction xs with
  | nil => simp [locInvListB]
  | cons c cs ih => simp [locInvListB, ih, Bool.and_assoc]

theorem locInvB_mk_iff (r t : Path α) (cs : List (Location α)) :
    locInvB (.mk r t cs) = true ↔
      (∀ x ∈ postorderList cs, StrictAnc r x.1) ∧
      pairwiseUnrelB (cs.map Location.rootPath) = true ∧
      locInvListB cs = true := by
  simp [locInvB, Bool.and_eq_true, List.all_eq_true, and_assoc]

theorem locInvB_leaf (p tp : Path α) : locInvB (.mk p tp []) = true := by
  simp [locInvB, postorderList, pairwiseUnrelB, locInvListB]

theorem mem_postorderList_of_mem (cs : List (Location α)) (c : Location α)
    (x : Path α × Path α) (hc : c ∈ cs) (hx : x ∈ postorder c) :
    x ∈ postorderList cs := by
  induction cs with
  | nil => simp at hc
  | cons d ds ih =>
    rw [postorderList, List.mem_append]
    rcases List.mem_cons.1 hc with h | h
    · subst h; exact Or.inl hx
    · exact Or.inr (ih h)

mutual

theorem recognize_none_inv : ∀ (l : Location α) (p tp : Path α) (l' : Location α),
    locInvB l = true →
    (∀ x ∈ postorder l, ¬ p <+: x.1) →
    Location.recognize l p tp = (none, l') →
    locInvB l' = true ∧ l'.rootPath = l.rootPath
  | .mk r t cs, p, tp, l', hI, hp, h => by
    simp only [Location.recognize] at h
    rcases hres : recognizeList cs p tp with ⟨o, cs2⟩
    rw [hres] at h
    rw [locInvB_mk_iff] at hI
    obtain ⟨hsub, hsib, hlist⟩ := hI
    have hpcs : ∀ x ∈ postorderList cs, ¬ p <+: x.1 := fun x hx =>
      hp x (by rw [postorder]; exact List.mem_append_left _ hx)
    match o with
    | none =>
      simp only [Prod.mk.injEq, true_and] at h
      obtain ⟨hInv2, hroots2⟩ := recognizeList_none_inv cs p tp cs2 hlist hpcs hres
      obtain ⟨hpost2, x0, hx0, hx0p⟩ := recognizeList_none cs p tp cs2 hres
      have hrp : StrictAnc r p := by
        have h1 : StrictAnc r x0.1 := hsub x0 hx0
        refine ⟨List.IsPrefix.trans h1.1 hx0p, ?_⟩
        intro he
        exact hpcs x0 hx0 (he ▸ h1.1)
      refine ⟨?_, by rw [← h]; rfl⟩
      rw [← h, locInvB_mk_iff]
      refine ⟨?_, ?_, hInv2⟩
      · intro x hx
        rw [hpost2] at hx
        rcases (mem_listAdd _ _ _ _).1 hx with hx | hx
        · subst hx; exact hrp
        · exact hsub x hx
      · rw [hroots2]; exact hsib
    | some q0 =>
      have ihs := recognizeList_some cs p tp q0 cs2 hres
      by_cases hpre : r <+: p
      · simp only [if_pos hpre, Prod.mk.injEq, true_and] at h
        have hrnep : r ≠ p := by
          intro he
          exact hp (r, t) (by simp [postorder]) (he ▸ List.prefix_refl p)
        refine ⟨?_, by rw [← h]; rfl⟩
        rw [← h, locInvB_mk_iff]
        refine ⟨?_, ?_, ?_⟩
        · intro x hx
          rw [postorderList_append] at hx
          rcases List.mem_append.1 hx with hx | hx
          · exact hsub x hx
          · simp only [postorderList, postorder, List.nil_append,
              List.mem_singleton, List.append_nil] at hx
            subst hx
            exact ⟨hpre, hrnep⟩
        · rw [List.map_append]
          simp only [List.map_cons, List.map_nil, Location.rootPath]
          apply pairwiseUnrelB_append_singleton _ _ hsib
          intro a ha
          obtain ⟨cc, hccmem, hccr⟩ := List.mem_map.1 ha
          have hmem := mem_postorderList_of_mem cs cc (cc.rootPath, cc.tempPath)
            hccmem (root_temp_mem_postorder cc)
          rw [relatedB_eq_false_iff]
          constructor
          · intro hab
            have hcp : cc.rootPath <+: p := by rw [hccr]; exact hab
            exact (ihs.2.2 _ hmem) hcp
          · intro hba
            have hcp : p <+: cc.rootPath := by rw [hccr]; exact hba
            exact (hpcs _ hmem) hcp
        · rw [locInvListB_append, hlist]
          simp [locInvListB, locInvB_leaf]
      · simp [if_neg hpre] at h

theorem recognizeList_none_inv : ∀ (ls : List (Location α)) (p tp : Path α)
    (ls' : List (Location α)),
    locInvListB ls = true →
    (∀ x ∈ postorderList ls, ¬ p <+: x.1) →
    recognizeList ls p tp = (none, ls') →
    locInvListB ls' = true ∧ ls'.map Location.rootPath = ls.map Location.rootPath
  | [], p, tp, ls', _, _, h => by simp [recognizeList] at h
  | c :: rest, p, tp, ls', hI, hp, h => by
    simp only [recognizeList] at h
    simp only [locInvListB, Bool.and_eq_true] at hI
    obtain ⟨hIc, hIrest⟩ := hI
    rcases hc : Location.recognize c p tp with ⟨oc, c2⟩
    rw [hc] at h
    match oc with
    | none =>
      simp only [Prod.mk.injEq, true_and] at h
      obtain ⟨hc2I, hc2r⟩ := recognize_none_inv c p tp c2 hIc
        (fun x hx => hp x (by rw [postorderList]; exact List.mem_append_left _ hx)) hc
      constructor
      · rw [← h]; simp [locInvListB, hc2I, hIrest]
      · rw [← h]; simp [List.map_cons, hc2r]
    | some qc =>
      rcases hr : recognizeList rest p tp with ⟨or, rest2⟩
      rw [hr] at h
      match or with
      | none =>
        simp only [Prod.mk.injEq, true_and] at h
        obtain ⟨hr2I, hr2r⟩ := recognizeList_none_inv rest p tp rest2 hIrest
          (fun x hx => hp x (by rw [postorderList]; exact List.mem_append_right _ hx)) hr
        constructor
        · rw [← h]; simp [locInvListB, hIc, hr2I]
        · rw [← h]; simp [List.map_cons, hr2r]
      | some qr => simp at h

end

theorem add_preserves_inv (t : LayerTree α) (p tp : Path α)
    (hI : treeInvB t = true)
    (hp : ∀ x ∈ postorderList t.locations, ¬ p <+: x.1) :
    treeInvB (t.add p tp) = true := by
  rw [treeInvB, Bool.and_eq_true] at hI
  obtain ⟨hroots, hlist⟩ := hI
  rcases hls : t.locations with _ | ⟨c, rest⟩
  · simp only [LayerTree.add, hls]
    simp [treeInvB, pairwiseUnrelB, locInvListB, locInvB_leaf, Location.rootPath]
  · rw [hls] at hroots hlist hp
    rcases hres : recognizeList (c :: rest) p tp with ⟨o, ls2⟩
    match o with
    | none =>
      obtain ⟨hI2, hroots2⟩ := recognizeList_none_inv (c :: rest) p tp ls2 hlist hp hres
      have hadd : (t.add p tp).locations = ls2 := by
        simp only [LayerTree.add, hls, hres]
      rw [treeInvB, hadd, hroots2, Bool.and_eq_true]
      exact ⟨hroots, hI2⟩
    | some q0 =>
      have ihs := recognizeList_some (c :: rest) p tp q0 ls2 hres
      obtain ⟨hq, _, hnc⟩ := ihs
      rw [hq] at hres
      have hadd : (t.add p tp).locations = (c :: rest) ++ [.mk p tp []] := by
        simp only [LayerTree.add, hls, hres]
      rw [treeInvB, hadd, Bool.and_eq_true]
      constructor
      · rw [List.map_append]
        simp only [List.map_cons, List.map_nil, Location.rootPath]
        apply pairwiseUnrelB_append_singleton _ _ hroots
        intro a ha
        obtain ⟨cc, hccmem, hccr⟩ := List.mem_map.1 ha
        have hmem := mem_postorderList_of_mem (c :: rest) cc (cc.rootPath, cc.tempPath)
          hccmem (root_temp_mem_postorder cc)
        rw [relatedB_eq_false_iff]
        constructor
        · intro hab
          have hcp : cc.rootPath <+: p := by rw [hccr]; exact hab
          exact (hnc _ hmem) hcp
        · intro hba
          have hcp : p <+: cc.rootPath := by rw [hccr]; exact hba
          exact (hp _ hmem) hcp
      · rw [locInvListB_append, hlist]
        simp [locInvListB, locInvB_leaf]

/-- Counterexample to C3 as stated: adding a path and then a strict
filesystem ancestor of it leaves two root nodes whose final paths are
ancestor/descendant of each other, so the claimed sibling invariant does
not hold after every sequence of add calls. -/
theorem layerTree_inv_counterexample :
    treeInvB (buildTree [(([0, 1] : Path Nat), []), ([0], [])]) = false := by
  decide

/-- C3 (amended): after every sequence of add calls in which no added
path is a filesystem ancestor (prefix, equality included) of any
previously added path — in particular whenever ancestors are always added
before their descendants and no path is added twice — the LayerTree
satisfies the invariant: every path in a child subtree is a strict
filesystem descendant of its node, and no two sibling nodes (children of
the same node, or two roots) have related final paths. -/
theorem layerTree_inv_of_no_late_ancestor (ops : List (Path α × Path α))
    (h : ops.Pairwise (fun x y => ¬ y.1 <+: x.1)) :
    treeInvB (buildTree ops) = true := by
  induction ops using List.reverseRecOn with
  | nil => simp [buildTree, treeInvB, pairwiseUnrelB, locInvListB]
  | append_singleton ops b ih =>
    rw [List.pairwise_append] at h
    obtain ⟨h1, _, h3⟩ := h
    have hbuild : buildTree (ops ++ [b]) = (buildTree ops).add b.1 b.2 := by
      rw [buildTree, List.foldl_append]
      rfl
    rw [hbuild]
    apply add_preserves_inv _ _ _ (ih h1)
    intro x hx
    rw [buildTree_postorder] at hx
    have hxops : x ∈ ops := (listBuild_perm ops).mem_iff.1 hx
    exact h3 x hxops b (by simp)

/-- Witness for the amended C3 at a concrete ancestor-first insertion
sequence. -/
theorem layerTree_inv_witness :
    treeInvB (buildTree [(([0] : Path Nat), [7]), ([0, 1], [8])]) = true :=
  layerTree_inv_of_no_late_ancestor _ (by decide)

theorem foldOutcomes_stays_true (outs : List (JobOutcome α)) (st : Bool × LayerTree α)
    (h : st.1 = true) :
    (outs.foldl
      (fun st o =>
        match o with
        | JobOutcome.ok d tmp => (st.1, st.2.add d tmp)
        | JobOutcome.failed => (true, st.2)) st).1 = true := by
  induction outs generalizing st with
  | nil => simpa using h
  | cons o rest ih =>
    match o with
    | .ok d tmp => exact ih _ (by simpa using h)
    | .failed => exact ih _ rfl

theorem foldOutcomes_failed (outs : List (JobOutcome α)) (st : Bool × LayerTree α)
    (h : JobOutcome.failed ∈ outs) :
    (outs.foldl
      (fun st o =>
        match o with
        | JobOutcome.ok d tmp => (st.1, st.2.add d tmp)
        | JobOutcome.failed => (true, st.2)) st).1 = true := by
  induction outs generalizing st with
  | nil => simp at h
  | cons o rest ih =>
    rw [List.foldl_cons]
    match o with
    | .failed => exact foldOutcomes_stays_true rest _ rfl
    | .ok d tmp =>
      rcases List.mem_cons.1 h with h2 | h2
      · exact absurd h2 (by simp)
      · exact ih _ h2

theorem collectOutcomes_failed (outs : List (JobOutcome α))
    (h : JobOutcome.failed ∈ outs) : (collectOutcomes outs).1 = true := by
  rw [collectOutcomes]
  exact foldOutcomes_failed outs _ h

theorem executeModel_eq (workers : List Nat) (specs : List σ)
    (events : List PoolEvent) (outcomes : List (JobOutcome α)) :
    executeModel workers specs events outcomes =
      match collectLoop workers (initialDispatch workers specs).2.1
          (initialDispatch workers specs).2.2 (initialDispatch workers specs).1 events with
      | none => (.error (), (initialDispatch workers specs).1, [])
      | some dispatched =>
        if (collectOutcomes (α := α) outcomes).1 then (.error (), dispatched, [])
        else (.ok (), dispatched,
          workers.map Action.sendTerminate
            ++ placementActs (collectOutcomes (α := α) outcomes).2.consume
            ++ workers.map Action.join) := by
  unfold executeModel
  rcases initialDispatch workers specs with ⟨a, r, f⟩
  rcases collectOutcomes (α := α) outcomes with ⟨fl, t⟩
  rfl

/-- C2: whenever at least one collected job outcome is Failed, execute
returns an error and the effect trace is empty: no placement step (no
directory creation, no rename) is attempted, even though all other
outcomes were processed into the tree by the full drain of the result
channel. -/
theorem execute_fails_without_placement (workers : List Nat) (specs : List σ)
    (events : List PoolEvent) (outcomes : List (JobOutcome α))
    (hfail : JobOutcome.failed ∈ outcomes) :
    (executeModel workers specs events outcomes).1 = .error () ∧
    (executeModel workers specs events outcomes).2.2 = [] := by
  unfold executeModel
  rcases hd : initialDispatch workers specs with ⟨assigned, remaining, finished⟩
  have hflag : (collectOutcomes (α := α) outcomes).1 = true :=
    collectOutcomes_failed _ hfail
  cases hcl : collectLoop workers remaining finished assigned events with
  | none => simp [hcl]
  | some dispatched => simp [hcl, hflag]

/-- Witness for C2: one worker, one dispatched job that fails; execute
reports the error and performs no placement step. -/
theorem execute_fails_without_placement_witness :
    (executeModel (σ := Nat) (α := Nat) [7] [0] [PoolEvent.idle 7]
        [JobOutcome.failed]).1 = .error () ∧
    (executeModel (σ := Nat) (α := Nat) [7] [0] [PoolEvent.idle 7]
        [JobOutcome.failed]).2.2 = [] :=
  execute_fails_without_placement [7] [0] [PoolEvent.idle 7] [JobOutcome.failed]
    (by simp)

theorem createLoop_ok (ids : List Nat) (ws : List Nat) (rest : List RegMsg)
    (hdisj : ∀ i ∈ ids, i ∉ ws) (hnodup : ids.Nodup) :
    createLoop ws ids.length (ids.map RegMsg.online ++ rest) = .ok (ws ++ ids) := by
  induction ids generalizing ws with
  | nil => simp [createLoop]
  | cons i is ih =>
    simp only [List.map_cons, List.cons_append, List.length_cons, createLoop]
    have hni : i ∉ ws := hdisj i (List.mem_cons_self _ _)
    rw [insertWorker, if_neg hni, List.append_eq]
    rw [ih (ws ++ [i]) ?_ (List.nodup_cons.1 hnodup).2]
    · simp
    · intro j hj
      simp only [List.mem_append, List.mem_singleton]
      rintro (hjw | hje)
      · exact hdisj j (List.mem_cons_of_mem _ hj) hjw
      · subst hje; exact (List.nodup_cons.1 hnodup).1 hj

theorem createLoop_err (pre : List RegMsg) (ws : List Nat) (n : Nat) (x : RegMsg)
    (post : List RegMsg) (hlen : pre.length < n) (hx : ∀ id, x ≠ .online id) :
    createLoop ws n (pre ++ x :: post) = .error () := by
  induction pre generalizing ws n with
  | nil =>
    match n, hlen with
    | Nat.succ n, _ =>
      match x, hx with
      | .online id, hx => exact absurd rfl (hx id)
      | .idle id, _ => rfl
      | .closed, _ => rfl
  | cons m pre ih =>
    match n, hlen with
    | Nat.succ n, hlen =>
      match m with
      | .online id =>
        simp only [List.cons_append, createLoop]
        exact ih _ _ (by simpa using hlen)
      | .idle id => rfl
      | .closed => rfl

theorem createLoop_short (msgs : List RegMsg) (ws : List Nat) (n : Nat)
    (hlen : msgs.length < n) : createLoop ws n msgs = .error () := by
  induction msgs generalizing ws n with
  | nil =>
    match n, hlen with
    | Nat.succ n, _ => rfl
  | cons m rest ih =>
    match n, hlen with
    | Nat.succ n, hlen =>
      match m with
      | .online id =>
        simp only [createLoop]
        exact ih _ _ (by simpa using hlen)
      | .idle id => rfl
      | .closed => rfl

/-- C6: for a requested count N, create returns a pool of exactly the N
workers whose Online registrations (with distinct identities) arrive
first, and returns an error — never a partial pool — as soon as any of
the N receives is not a successful Online registration: a wrong message,
a closed channel, or a channel that yields nothing further. -/
theorem createModel_spec (n : Nat) :
    (∀ (ids : List Nat) (rest : List RegMsg), ids.length = n → ids.Nodup →
      createModel n (ids.map RegMsg.online ++ rest) = .ok ids ∧ ids.length = n) ∧
    (∀ (pre : List RegMsg) (x : RegMsg) (post : List RegMsg),
      pre.length < n → (∀ id, x ≠ .online id) →
      createModel n (pre ++ x :: post) = .error ()) ∧
    (∀ msgs : List RegMsg, msgs.length < n → createModel n msgs = .error ()) := by
  refine ⟨?_, ?_, ?_⟩
  · intro ids rest hlen hnodup
    refine ⟨?_, hlen⟩
    rw [createModel, ← hlen]
    have h := createLoop_ok ids [] rest (by simp) hnodup
    simpa using h
  · intro pre x post hlen hx
    rw [createModel]
    exact createLoop_err pre [] n x post hlen hx
  · intro msgs hlen
    rw [createModel]
    exact createLoop_short msgs [] n hlen

/-- Witness for C6: two distinct registrations build a two-worker pool;
a closed channel in the second slot aborts construction. -/
theorem createModel_spec_witness :
    createModel 2 [RegMsg.online 4, RegMsg.online 9] = .ok [4, 9] ∧
    createModel 2 [RegMsg.online 4, RegMsg.closed] = .error () := by
  constructor
  · have h := ((createModel_spec 2).1 [4, 9] [] (by decide) (by decide)).1
    simpa using h
  · exact (createModel_spec 2).2.1 [RegMsg.online 4] RegMsg.closed []
      (by decide) (fun id => by simp)

/-- Counterexample to C7 as stated: with one worker and one dispatched
job whose outcome is Failed, execute finishes collecting outcomes yet
returns the error with an empty effect trace: no termination signal is
sent to the worker job queue and no worker thread is joined, because the
failure return at src/execution.rs line 292 precedes both loops. -/
theorem execute_failure_skips_shutdown :
    (executeModel (σ := Nat) (α := Nat) [7] [0] [PoolEvent.idle 7]
        [JobOutcome.failed]) = (.error (), [(7, 0)], []) ∧
    Action.sendTerminate 7 ∉
      (executeModel (σ := Nat) (α := Nat) [7] [0] [PoolEvent.idle 7]
        [JobOutcome.failed]).2.2 ∧
    Action.join 7 ∉
      (executeModel (σ := Nat) (α := Nat) [7] [0] [PoolEvent.idle 7]
        [JobOutcome.failed]).2.2 := by
  refine ⟨?_, ?_, ?_⟩ <;> first
    | rfl
    | (intro hmem
       have h : (executeModel (σ := Nat) (α := Nat) [7] [0] [PoolEvent.idle 7]
          [JobOutcome.failed]).2.2 = [] := rfl
       rw [h] at hmem
       simp at hmem)

/-- C7 (amended): when execute returns success, the effect trace is a
termination signal to every still-registered worker, then the placement
operations, then a join of every worker thread; when any collected
outcome is Failed, execute instead returns the error at once with an
empty trace — no termination signal and no join happens on that path. -/
theorem execute_shutdown_amended (workers : List Nat) (specs : List σ)
    (events : List PoolEvent) (outcomes : List (JobOutcome α)) :
    ((executeModel workers specs events outcomes).1 = .ok () →
      (executeModel workers specs events outcomes).2.2
        = workers.map Action.sendTerminate
            ++ placementActs (collectOutcomes outcomes).2.consume
            ++ workers.map Action.join) ∧
    (JobOutcome.failed ∈ outcomes →
      (executeModel workers specs events outcomes).2.2 = []) := by
  constructor
  · intro hok
    rw [executeModel_eq] at hok ⊢
    cases hcl : collectLoop workers (initialDispatch workers specs).2.1
        (initialDispatch workers specs).2.2 (initialDispatch workers specs).1 events with
    | none => rw [hcl] at hok; simp at hok
    | some dispatched =>
      by_cases hflag : (collectOutcomes (α := α) outcomes).1 = true
      · simp [hcl, hflag] at hok
      · simp [hflag]
  · intro hfail
    unfold executeModel
    rcases hd : initialDispatch workers specs with ⟨assigned, remaining, finished⟩
    have hflag : (collectOutcomes (α := α) outcomes).1 = true :=
      collectOutcomes_failed _ hfail
    cases hcl : collectLoop workers remaining finished assigned events with
    | none => simp [hcl]
    | some dispatched => simp [hcl, hflag]

/-- Witness for the amended C7: a success run sends terminate and joins
the worker; a failed run produces an empty trace. -/
theorem execute_shutdown_amended_witness :
    (executeModel (σ := Nat) (α := Nat) [3] [] [] []).2.2
        = [Action.sendTerminate 3, Action.join 3] ∧
    (executeModel (σ := Nat) (α := Nat) [9] [0] [PoolEvent.idle 9]
        [JobOutcome.failed]).2.2 = [] := by
  constructor
  · have h := (execute_shutdown_amended (σ := Nat) (α := Nat) [3] [] [] []).1 rfl
    rw [h]
    have hc : (collectOutcomes (α := Nat) ([] : List (JobOutcome Nat))).2.consume
        = [] := by
      rw [consume_eq]; rfl
    rw [hc]
    rfl
  · exact (execute_shutdown_amended (σ := Nat) (α := Nat) [9] [0] [PoolEvent.idle 9]
      [JobOutcome.failed]).2 (by simp)

/-- C8: a worker whose job hits any failing step (staging dir, clone,
revision lookup, set-head, checkout, hard reset) sends that job Failed
outcome and returns from its run loop permanently: the emitted sequence
ends with the error result, no Idle event follows it, and whatever jobs
sit in the queue after the failing one are never received or processed. -/
theorem workerLoop_ok_cons (s : CloneScript) (rest : List WJob)
    (h : s.allOk = true) :
    workerLoop (WJob.cloner s :: rest)
      = WOut.resultOk :: WOut.idle :: workerLoop rest := by
  rcases s with ⟨m, c, f, sh, co, re⟩
  simp only [CloneScript.allOk, Bool.and_eq_true] at h
  obtain ⟨⟨⟨⟨⟨hm, hc⟩, hf⟩, hsh⟩, hco⟩, hre⟩ := h
  subst hm; subst hc; subst hf; subst hsh; subst hco; subst hre
  simp [workerLoop]

theorem workerLoop_err_cons (s : CloneScript) (rest : List WJob)
    (h : s.allOk = false) :
    workerLoop (WJob.cloner s :: rest) = [WOut.resultErr] := by
  rcases s with ⟨m, c, f, sh, co, re⟩
  simp only [CloneScript.allOk] at h
  cases m <;> cases c <;> cases f <;> cases sh <;> cases co <;> cases re <;>
    simp_all [workerLoop]

theorem worker_stops_after_failure (pre : List WJob) (s : CloneScript)
    (post : List WJob)
    (hpre : ∀ j ∈ pre, ∃ s2, j = WJob.cloner s2 ∧ s2.allOk = true)
    (hs : s.allOk = false) :
    workerLoop (pre ++ WJob.cloner s :: post)
      = (List.replicate pre.length [WOut.resultOk, WOut.idle]).flatten
        ++ [WOut.resultErr] := by
  induction pre with
  | nil =>
    simpa using workerLoop_err_cons s post hs
  | cons j pre ih =>
    obtain ⟨s2, hj, hok⟩ := hpre j (List.mem_cons_self _ _)
    subst hj
    rw [List.cons_append, workerLoop_ok_cons _ _ hok,
      ih (fun j hj => hpre j (List.mem_cons_of_mem _ hj))]
    simp [List.replicate_succ]

/-- Witness for C8: an ok job, then a job whose clone step fails, then a
queued ok job that is never processed. -/
theorem worker_stops_after_failure_witness :
    workerLoop [WJob.cloner ⟨true, true, true, true, true, true⟩,
      WJob.cloner ⟨true, false, true, true, true, true⟩,
      WJob.cloner ⟨true, true, true, true, true, true⟩]
      = [WOut.resultOk, WOut.idle, WOut.resultErr] := by
  have h := worker_stops_after_failure
    [WJob.cloner ⟨true, true, true, true, true, true⟩]
    ⟨true, false, true, true, true, true⟩
    [WJob.cloner ⟨true, true, true, true, true, true⟩]
    (by
      intro j hj
      rw [List.mem_singleton] at hj
      exact ⟨_, hj, rfl⟩)
    rfl
  simpa using h

/-- C10: a requested worker count of 0 is accepted without error — the
N at least 1 precondition is not enforced — returning a pool with no
workers, and execute on that pool succeeds for any manifest without
dispatching any job and without any termination, placement, or join
action.  With no dispatched job the result channel yields no outcomes,
which the hypothesis records. -/
theorem zero_workers_trivial_execute (msgs : List RegMsg) (specs : List σ)
    (events : List PoolEvent) (outcomes : List (JobOutcome α))
    (houtcomes : outcomes = []) :
    createModel 0 msgs = .ok [] ∧
    executeModel [] specs events outcomes = (.ok (), [], []) := by
  subst houtcomes
  refine ⟨rfl, ?_⟩
  have hc : (LayerTree.consume (α := α) ⟨[]⟩) = [] := by
    rw [consume_eq]; rfl
  unfold executeModel
  rcases hd : initialDispatch ([] : List Nat) specs with ⟨assigned, remaining, finished⟩
  have hd2 : assigned = [] ∧ finished = [] := by
    rw [initialDispatch] at hd
    cases specs <;> simp_all
  obtain ⟨ha, hf⟩ := hd2
  subst ha; subst hf
  have hloop : collectLoop ([] : List Nat) remaining ([] : List Nat)
      ([] : List (Nat × σ)) events = some [] := by
    rw [collectLoop.eq_def]
    simp
  simp [hloop, collectOutcomes, hc, placementActs]

/-- Witness for C10 at concrete inputs. -/
theorem zero_workers_trivial_execute_witness :
    createModel 0 [RegMsg.closed] = .ok [] ∧
    executeModel (σ := Nat) (α := Nat) [] [5] [PoolEvent.idle 2] [] = (.ok (), [], []) :=
  zero_workers_trivial_execute [RegMsg.closed] [5] [PoolEvent.idle 2] [] rfl

end Repors
